import Mathlib

/-!
# Verification of the OpenClaw session-repair engine

A shallow embedding of `scripts/fix-openclaw-session.py` (the analysis and
repair engine: `parse_jsonl`, the reference extractors, `analyze_session`,
and the apply/verify core of `fix_session`).

## Embedding conventions

* The engine's input is the decoded JSONL sequence, one `Entry` per
  non-empty line: the line number, the parse result (`none` for a line that
  fails `json.loads`), and the raw line text.  Records follow the input
  format of the specification: `id` and `parentId` are strings (absent
  fields default to `""`, as in the Python `obj.get(..., "")`), `message`
  is an optional object with the fields the engine reads.  A `message`
  whose `content` is JSON `null` is distinguished from an absent `content`
  because `is_empty_error_assistant` treats `None` and `[]` alike while the
  block scanners treat both as "no blocks".
* Python `set`s are modelled as duplicate-free `List String` built in
  encounter order (`insSet`); only membership is ever consumed.
* `json.dumps` of a rewritten record is modelled by `dumps` below; the
  serialized text of a rewritten line is never inspected again except for
  equality with itself, and re-reading a written file is modelled by the
  output `Entry` list itself (the stdlib guarantees
  `json.loads(json.dumps(o)) == o`).
* The presentation-only report fields (`reasons`, `line_map`, `file`, and
  the `sorted(...)` applied to id lists before reporting) are not modelled:
  they are consumed only by console formatting, which the specification
  places outside the engine.
-/

namespace OpenClaw

/-- Python `pat in hay` for strings: `leadsWithChars pat hay` is true iff
`pat` is a prefix of `hay` (character-wise). -/
def leadsWithChars : List Char → List Char → Bool
  | [], _ => true
  | _ :: _, [] => false
  | a :: as, b :: bs => a == b && leadsWithChars as bs

/-- `hasSubChars pat hay` is true iff `pat` occurs contiguously in `hay`. -/
def hasSubChars : List Char → List Char → Bool
  | pat, [] => pat.isEmpty
  | pat, c :: rest => leadsWithChars pat (c :: rest) || hasSubChars pat rest

/-- Python's substring test `pat in hay` on strings. -/
def strContains (hay pat : String) : Bool :=
  hasSubChars pat.toList hay.toList

/-- Set-insert on a duplicate-free list: Python `s.add(x)`. -/
def insSet (s : List String) (x : String) : List String :=
  if s.contains x then s else s ++ [x]

/-- Python `s |= xs` / set union, folding `insSet`. -/
def addAll (s xs : List String) : List String :=
  xs.foldl insSet s

/-- A content block of a message.  `nonDict` stands for a list element that
is not a JSON object (the Python code skips those); for an object block,
`btype` is `block.get("type")`, `bid` is `block.get("id", "")`,
`partJson` is the key-presence test `"partialJson" in block`, and
`tuid` is `block.get("tool_use_id", "")`. -/
inductive Block where
  | nonDict : Block
  | obj (btype : Option String) (bid : String) (partJson : Bool) (tuid : String) : Block
deriving DecidableEq

/-- The `content` field of a message: absent key, JSON `null`, or a list of
blocks.  (A non-list, non-null `content` behaves like `null` in every block
scanner but differs in `is_empty_error_assistant`'s `content == [] or
content is None`; the specification's input format restricts `content` to
an optional list, so the non-list non-null shape is outside the model.) -/
inductive Content where
  | absent : Content
  | null : Content
  | blocks (bs : List Block) : Content
deriving DecidableEq

/-- The `message` object of a record, restricted to the fields the engine
reads.  `errorMessage` is `msg.get("errorMessage", "")` (absent = `""`). -/
structure Msg where
  role : Option String
  content : Content
  stopReason : Option String
  errorMessage : String
  toolCallId : Option String
  toolUseId : Option String
deriving DecidableEq

/-- One decoded JSONL record: `obj.get("id", "")`, `obj.get("parentId", "")`
and the optional `message` object. -/
structure Record where
  id : String
  parentId : String
  message : Option Msg
deriving DecidableEq

/-- One element of `parse_jsonl`'s result: `(line_number, parsed_or_none, raw_line)`. -/
structure Entry where
  lineno : Nat
  obj : Option Record
  raw : String
deriving DecidableEq

def TOOL_CALL_TYPES : List String := ["toolCall", "toolUse", "functionCall"]

def TOOL_RESULT_ROLES : List String := ["toolResult", "tool_result"]

/-- The empty dict that `obj.get("message", {})` defaults to. -/
def emptyMsg : Msg := ⟨none, Content.absent, none, "", none, none⟩

/-- `msg = obj.get("message", {})`. -/
def msgOf (r : Record) : Msg := r.message.getD emptyMsg

/-- `get_role`: the message's declared role, `None` when `message` is absent. -/
def get_role (r : Record) : Option String := r.message.bind (·.role)

/-- `get_id`. -/
def get_id (r : Record) : String := r.id

/-- `get_parent_id`. -/
def get_parent_id (r : Record) : String := r.parentId

/-- The list of blocks a block scanner iterates over: absent `content`
defaults to `[]`, and a `null` content fails `isinstance(content, list)`,
so both scan as no blocks. -/
def blockList : Content → List Block
  | Content.blocks bs => bs
  | _ => []

/-- Membership of an optional tag in a list of type tags
(`block.get("type") in TOOL_CALL_TYPES`). -/
def tagIn (tys : List String) : Option String → Bool
  | some t => tys.contains t
  | none => false

/-- `extract_tool_call_ids`: the set of non-empty `id`s of tool-call-typed
blocks of the message's content. -/
def extract_tool_call_ids (r : Record) : List String :=
  (blockList (msgOf r).content).foldl
    (fun acc b =>
      match b with
      | Block.nonDict => acc
      | Block.obj ty bid _ _ =>
          if tagIn TOOL_CALL_TYPES ty && bid != "" then insSet acc bid else acc)
    []

/-- `has_partial_json`: some tool-call block carries the `partialJson` key. -/
def has_partial_json (r : Record) : Bool :=
  (blockList (msgOf r).content).any fun b =>
    match b with
    | Block.nonDict => false
    | Block.obj ty _ pj _ => tagIn TOOL_CALL_TYPES ty && pj

/-- `is_error_assistant`: `msg.get("stopReason") == "error"`. -/
def is_error_assistant (r : Record) : Bool :=
  (msgOf r).stopReason == some "error"

/-- `content == [] or content is None`. -/
def contentEmpty : Content → Bool
  | Content.absent => true
  | Content.null => true
  | Content.blocks bs => bs.isEmpty

/-- `is_empty_error_assistant`: assistant role, empty/null content, and the
substring `"tool_use_id"` inside `errorMessage`. -/
def is_empty_error_assistant (r : Record) : Bool :=
  (msgOf r).role == some "assistant" && contentEmpty (msgOf r).content &&
    strContains (msgOf r).errorMessage "tool_use_id"

/-- Python truthiness of an optional string field (`""` and `None` are falsy). -/
def truthyStr : Option String → Option String
  | some s => if s == "" then none else some s
  | none => none

/-- `a or b or None` on two optional string fields. -/
def orTruthy (a b : Option String) : Option String :=
  match truthyStr a with
  | some s => some s
  | none => truthyStr b

/-- `get_tool_result_id`: `msg.get("toolCallId") or msg.get("toolUseId") or
None` when the role is a tool-result role, else `None`. -/
def get_tool_result_id (r : Record) : Option String :=
  match (msgOf r).role with
  | some ro =>
      if TOOL_RESULT_ROLES.contains ro then orTruthy (msgOf r).toolCallId (msgOf r).toolUseId
      else none
  | none => none

/-- `get_tool_result_ids_from_user`: non-empty `tool_use_id`s of
`tool_result`-typed blocks of a user message.  (Defined by the source and
documented as corruption pattern 4, but never called by the analysis.) -/
def get_tool_result_ids_from_user (r : Record) : List String :=
  if (msgOf r).role == some "user" then
    (blockList (msgOf r).content).foldl
      (fun acc b =>
        match b with
        | Block.nonDict => acc
        | Block.obj ty _ _ tuid =>
            if ty == some "tool_result" && tuid != "" then insSet acc tuid else acc)
      []
  else []

/-- A single pass of `analyze_session` decomposed: fold `g` over the parsed
records in order, set-unioning the contributed ids.  (The Python passes each
run one `for` loop over `entries`, skipping unparseable lines.) -/
def gatherIds (g : Record → List String) (entries : List Entry) : List String :=
  entries.foldl
    (fun acc e =>
      match e.obj with
      | some o => addAll acc (g o)
      | none => acc)
    []

/-- Pass-1 classifier: role `assistant`, `stopReason == "error"`, and a
`partialJson` tool-call block (corruption class 1). -/
def isBrokenAssistant (o : Record) : Bool :=
  get_role o == some "assistant" && is_error_assistant o && has_partial_json o

/-- Pass 1, `broken_assistant_ids`. -/
def brokenAssistantIds (entries : List Entry) : List String :=
  gatherIds (fun o => if isBrokenAssistant o then [get_id o] else []) entries

/-- Pass 1, `broken_tool_call_ids` (the poisoned identity set). -/
def brokenToolCallIds (entries : List Entry) : List String :=
  gatherIds (fun o => if isBrokenAssistant o then extract_tool_call_ids o else []) entries

/-- Pass 2, `orphan_result_ids`: tool-result records whose referenced
tool-call id is poisoned. -/
def orphanResultIds (entries : List Entry) (poisoned : List String) : List String :=
  gatherIds
    (fun o =>
      match get_tool_result_id o with
      | some trId => if poisoned.contains trId then [get_id o] else []
      | none => [])
    entries

/-- Pass 3, `cascade_error_ids`: empty-error-assistant records whose
`errorMessage` contains some poisoned id as a substring. -/
def cascadeErrorIds (entries : List Entry) (poisoned : List String) : List String :=
  gatherIds
    (fun o =>
      if is_empty_error_assistant o &&
          poisoned.any (fun tcId => strContains (msgOf o).errorMessage tcId) then
        [get_id o]
      else [])
    entries

/-- `extract_all_tool_call_ids`: tool-call ids of all non-error assistant
messages.  (Computed by the source for the never-implemented pass 4 and
then unused.) -/
def extract_all_tool_call_ids (entries : List Entry) : List String :=
  gatherIds
    (fun o =>
      if get_role o == some "assistant" && !is_error_assistant o then
        extract_tool_call_ids o
      else [])
    entries

/-- `remove_ids = broken_assistant_ids | orphan_result_ids | cascade_error_ids`. -/
def removeIdsOf (entries : List Entry) : List String :=
  addAll
    (addAll (brokenAssistantIds entries)
      (orphanResultIds entries (brokenToolCallIds entries)))
    (cascadeErrorIds entries (brokenToolCallIds entries))

/-- The unparseable line numbers, in order. -/
def unparseableOf (entries : List Entry) : List Nat :=
  entries.filterMap fun e => if e.obj.isNone then some e.lineno else none

/-- The `id_to_parent` map, built by one pass of dict assignments. -/
def idToParent (entries : List Entry) : List (String × String) :=
  entries.foldl
    (fun acc e =>
      match e.obj with
      | some o => acc ++ [(get_id o, get_parent_id o)]
      | none => acc)
    []

/-- `id_to_parent.get(k, "")`: dict assignment is last-wins. -/
def lookupPar (m : List (String × String)) (k : String) : String :=
  match m.reverse.find? (fun p => p.1 == k) with
  | some p => p.2
  | none => ""

/-- The remap walk of `analyze_session`: starting from `anc`, follow
`id_to_parent` while the current id is in the removal set, with the
visited-set cycle guard; `fuel` bounds the iteration count (the engine
supplies `removeIds.length + 1`, which is never exhausted). -/
def remapWalk (m : List (String × String)) (removeIds : List String) :
    String → List String → Nat → String
  | anc, _, 0 => anc
  | anc, seen, fuel + 1 =>
      if removeIds.contains anc then
        if seen.contains anc then anc
        else remapWalk m removeIds (lookupPar m anc) (insSet seen anc) fuel
      else anc

/-- `parent_fixes`: for each removed id, the walk from its own parent with
`seen = {rid}`. -/
def parentFixesOf (m : List (String × String)) (removeIds : List String) :
    List (String × String) :=
  removeIds.map fun rid =>
    (rid, remapWalk m removeIds (lookupPar m rid) [rid] (removeIds.length + 1))

/-- `pid in parent_fixes` / `parent_fixes[pid]` as one lookup. -/
def lookupFix (pf : List (String × String)) (k : String) : Option String :=
  (pf.find? (fun p => p.1 == k)).map (·.2)

/-- The analysis report (`analyze_session`'s result dict), restricted to the
fields the engine itself consumes. -/
structure Report where
  lines : Nat
  corrupted : Bool
  broken_assistants : List String
  orphan_results : List String
  cascade_errors : List String
  unparseable_lines : List Nat
  remove_ids : List String
  remove_count : Nat
  parent_fixes : List (String × String)
  broken_tool_call_ids : List String
deriving DecidableEq

/-- The clean report (`{"lines": n, "corrupted": False}`; the absent keys are
modelled as empty, and are only ever read behind the `corrupted` flag). -/
def cleanReport (n : Nat) : Report :=
  ⟨n, false, [], [], [], [], [], 0, [], []⟩

/-- The corrupted-case report of `analyze_session`.  (The Python function
computes the shared intermediate sets once with `let`-style locals; naming
the result dict separately is the same computation.) -/
def corruptReport (entries : List Entry) : Report :=
  { lines := entries.length
    corrupted := true
    broken_assistants := brokenAssistantIds entries
    orphan_results := orphanResultIds entries (brokenToolCallIds entries)
    cascade_errors := cascadeErrorIds entries (brokenToolCallIds entries)
    unparseable_lines := unparseableOf entries
    remove_ids := removeIdsOf entries
    remove_count := (removeIdsOf entries).length
    parent_fixes := parentFixesOf (idToParent entries) (removeIdsOf entries)
    broken_tool_call_ids := brokenToolCallIds entries }

/-- `analyze_session` over the decoded entries. -/
def analyze_session (entries : List Entry) : Report :=
  if entries.isEmpty then cleanReport 0
  else if (removeIdsOf entries).isEmpty && (unparseableOf entries).isEmpty then
    cleanReport entries.length
  else corruptReport entries

/-- A minimal model of `json.dumps(obj, ensure_ascii=False)` on the modelled
fields.  No theorem inspects this text: a rewritten line is only ever
compared with itself (the source re-serializes exactly the records it
touches, and the second read of a written file is modelled by the output
entries directly). -/
def jsonEscape (s : String) : String :=
  s.toList.foldl
    (fun acc c =>
      if c = '"' then acc ++ "\\\""
      else if c = '\\' then acc ++ "\\\\"
      else if c = '\n' then acc ++ "\\n"
      else acc.push c)
    ""

def dumps (r : Record) : String :=
  "\x7b\"id\": \"" ++ jsonEscape r.id ++ "\", \"parentId\": \"" ++
    jsonEscape r.parentId ++ "\"\x7d"

/-- One iteration of `fix_session`'s write loop: `none` drops the line,
`some (obj?, text)` emits it.  Unparseable lines pass through raw; records
in the removal set are dropped; a record whose `parentId` is a key of
`parent_fixes` is rewritten and re-serialized; all other records pass
through with their original raw text. -/
def fixStep (removeIds : List String) (pf : List (String × String)) (e : Entry) :
    Option (Option Record × String) :=
  match e.obj with
  | none => some (none, e.raw)
  | some o =>
      if removeIds.contains (get_id o) then none
      else
        match lookupFix pf (get_parent_id o) with
        | some newPid =>
            let o' : Record := { o with parentId := newPid }
            some (some o', dumps o')
        | none => some (some o, e.raw)

/-- Assign line numbers `n, n+1, ...` to an output stream (the written file
has one record per line, so re-reading numbers them consecutively). -/
def renumberFrom : Nat → List (Option Record × String) → List Entry
  | _, [] => []
  | n, (o, r) :: rest => ⟨n, o, r⟩ :: renumberFrom (n + 1) rest

/-- The corrected sequence `fix_session` writes (its non-dry-run core,
lines 376–403), as re-read entries.  A report that is not corrupted makes
`fix_session` return without touching the file. -/
def apply_fix (entries : List Entry) (rep : Report) : List Entry :=
  if rep.corrupted then
    renumberFrom 1 (entries.filterMap (fixStep rep.remove_ids rep.parent_fixes))
  else entries

/-- Analyze-then-apply: one run of the repair engine. -/
def engineRun (entries : List Entry) : List Entry :=
  apply_fix entries (analyze_session entries)

/-- The verification pass of `fix_session` (lines 405–407): re-analyze the
written file and report whether it is clean. -/
def verifiedAfterFix (entries : List Entry) : Bool :=
  !(analyze_session (engineRun entries)).corrupted

/-- `parse_jsonl`, given the already-split lines of the file and the
per-line JSON decoder: empty lines are skipped, line numbers count all
lines starting from 1. -/
def parse_jsonl (decode : String → Option Record) (lines : List String) : List Entry :=
  (lines.enum.filterMap fun p =>
    if p.2 == "" then none else some (⟨p.1 + 1, decode p.2, p.2⟩ : Entry))

/-- The parent chain of an id: `chainFrom m x 0 = x`, and each further step
is one `id_to_parent.get(_, "")` lookup.  `chainFrom m rid (k+1)` is the
k-th ancestor the remap walk inspects when started on removed id `rid`. -/
def chainFrom (m : List (String × String)) (x : String) : Nat → String
  | 0 => x
  | n + 1 => lookupPar m (chainFrom m x n)

/-- No dangling parent references: every parsed record's `parentId` is empty
or the `id` of some parsed record of the sequence. -/
def DanglingFree (out : List Entry) : Prop :=
  ∀ e ∈ out, ∀ o : Record, e.obj = some o →
    get_parent_id o = "" ∨
      ∃ e' ∈ out, ∃ o' : Record, e'.obj = some o' ∧ get_id o' = get_parent_id o

/-- Decidable form of "this parent reference resolves inside `entries`". -/
def parentPresent (entries : List Entry) (pid : String) : Bool :=
  pid == "" ||
    entries.any fun e =>
      match e.obj with
      | some o => get_id o == pid
      | none => false

/-- Decidable form of `DanglingFree` for the input sequence. -/
def parentClosure (entries : List Entry) : Bool :=
  entries.all fun e =>
    match e.obj with
    | some o => parentPresent entries (get_parent_id o)
    | none => true

/-- The parent chain of `rid` leaves the removal set within `|rem| + 1`
steps (a chain that ever leaves it does so that fast, because the removed
prefix of an escaping chain cannot repeat). -/
def escapeWithin (m : List (String × String)) (rem : List String) (rid : String) : Bool :=
  (List.range (rem.length + 1)).any fun n => !(rem.contains (chainFrom m rid n))

/-- Every removed id's parent chain escapes the removal set: the
"no cycle among removed records" side condition of the remap walk. -/
def allChainsEscape (entries : List Entry) : Bool :=
  (removeIdsOf entries).all fun rid =>
    escapeWithin (idToParent entries) (removeIdsOf entries) rid

/-! ## Concrete inputs used by witnesses and counterexamples -/

/-- A broken assistant record (class 1): `stopReason = "error"` and a
`partialJson` tool-call block carrying id `T1`. -/
def recA : Record :=
  ⟨"A", "",
    some ⟨some "assistant", Content.blocks [Block.obj (some "toolCall") "T1" true ""],
      some "error", "terminated", none, none⟩⟩

/-- A synthetic toolResult answering the poisoned id `T1` (class 2). -/
def recR1 : Record := ⟨"R1", "A", some ⟨some "toolResult", Content.absent, none, "", some "T1", none⟩⟩

/-- A surviving record whose parent is the removed `R1`. -/
def recB : Record := ⟨"B", "R1", none⟩

/-- A user record with a `tool_result` content block referencing `T1`. -/
def recU : Record :=
  ⟨"U", "A",
    some ⟨some "user", Content.blocks [Block.obj (some "tool_result") "" false "T1"], none, "",
      none, none⟩⟩

/-- An empty assistant whose `errorMessage` mentions `T1` but lacks the
`tool_use_id` substring. -/
def recE : Record := ⟨"E", "A", some ⟨some "assistant", Content.blocks [], none, "bad T1", none, none⟩⟩

/-- An empty assistant whose `errorMessage` carries both the `tool_use_id`
substring and the poisoned id `T1`. -/
def recE2 : Record :=
  ⟨"E2", "A",
    some ⟨some "assistant", Content.blocks [], none, "unexpected tool_use_id found: T1", none, none⟩⟩

/-- A clean record whose `parentId` names an id that appears nowhere. -/
def recX : Record := ⟨"X", "GHOST", none⟩

/-- A second record that reuses the id `A` but matches no corruption class. -/
def recA2 : Record := ⟨"A", "", some ⟨some "user", Content.absent, none, "", none, none⟩⟩

/-- An unrelated clean record. -/
def recS : Record := ⟨"S", "", none⟩

/-- Two broken assistants whose parents form a 2-cycle, and a surviving child. -/
def recCycA : Record :=
  ⟨"A", "B",
    some ⟨some "assistant", Content.blocks [Block.obj (some "toolCall") "TA" true ""],
      some "error", "", none, none⟩⟩

def recCycB : Record :=
  ⟨"B", "A",
    some ⟨some "assistant", Content.blocks [Block.obj (some "toolCall") "TB" true ""],
      some "error", "", none, none⟩⟩

def recCycC : Record := ⟨"C", "A", none⟩

/-- The scenario of the specification: broken assistant, orphan result,
surviving child. -/
def exEntries : List Entry :=
  [⟨1, some recA, "rawA"⟩, ⟨2, some recR1, "rawR1"⟩, ⟨3, some recB, "rawB"⟩]

/-- Failing input of the pattern-4 slip: a broken assistant and a surviving
user record whose `tool_result` block references the poisoned id. -/
def c2Entries : List Entry := [⟨1, some recA, "rawA"⟩, ⟨2, some recU, "rawU"⟩]

/-- Counterexample input for the cascade classification. -/
def c7Entries : List Entry := [⟨1, some recA, "rawA"⟩, ⟨2, some recE, "rawE"⟩]

/-- Input whose cascade record carries the `tool_use_id` substring. -/
def c7okEntries : List Entry := [⟨1, some recA, "rawA"⟩, ⟨2, some recE2, "rawE2"⟩]

/-- A clean input with a dangling parent reference. -/
def ghostEntries : List Entry := [⟨1, some recX, "rawX"⟩]

/-- The cyclic-parent input of the cycle-safety scenario. -/
def cycEntries : List Entry :=
  [⟨1, some recCycA, "ra"⟩, ⟨2, some recCycB, "rb"⟩, ⟨3, some recCycC, "rc"⟩]

/-- A duplicate-id input: the broken `recA` and the innocent `recA2` share
the id `A`. -/
def dupEntries : List Entry :=
  [⟨1, some recA, "rawA"⟩, ⟨2, some recA2, "rawA2"⟩, ⟨3, some recS, "rawS"⟩]

/-- A clean input. -/
def cleanEntries : List Entry := [⟨1, some recS, "rawS"⟩]

/-- A corrupted input containing an unparseable line. -/
def unpEntries : List Entry :=
  [⟨1, some recA, "rawA"⟩, ⟨2, none, "not json"⟩, ⟨3, some recB, "rawB"⟩]

/-! ## Set-helper lemmas -/

theorem mem_of_contains {l : List String} {a : String} (h : l.contains a = true) : a ∈ l := by
  simpa using h

theorem contains_of_mem {l : List String} {a : String} (h : a ∈ l) : l.contains a = true := by
  simpa using h

theorem contains_false_iff {l : List String} {a : String} :
    l.contains a = false ↔ a ∉ l := by
  constructor
  · intro h hmem
    rw [contains_of_mem hmem] at h
    exact Bool.noConfusion h
  · intro h
    cases hc : l.contains a with
    | false => rfl
    | true => exact absurd (mem_of_contains hc) h

theorem mem_insSet {s : List String} {x y : String} :
    y ∈ insSet s x ↔ y ∈ s ∨ y = x := by
  unfold insSet
  by_cases h : s.contains x = true
  · simp only [h, if_true]
    constructor
    · exact Or.inl
    · rintro (hy | rfl)
      · exact hy
      · exact mem_of_contains h
  · rw [if_neg h]
    simp

theorem nodup_insSet {s : List String} {x : String} (h : s.Nodup) : (insSet s x).Nodup := by
  unfold insSet
  by_cases hc : s.contains x = true
  · rw [if_pos hc]; exact h
  · rw [if_neg hc]
    rw [Bool.not_eq_true] at hc
    simp [List.nodup_append, h, contains_false_iff.mp hc]

theorem mem_addAll {xs : List String} : ∀ {s : List String} {y : String},
    y ∈ addAll s xs ↔ y ∈ s ∨ y ∈ xs := by
  induction xs with
  | nil => simp [addAll]
  | cons x xs ih =>
      intro s y
      show y ∈ addAll (insSet s x) xs ↔ _
      rw [ih, mem_insSet]
      simp only [List.mem_cons]
      tauto

theorem nodup_addAll {xs : List String} : ∀ {s : List String},
    s.Nodup → (addAll s xs).Nodup := by
  induction xs with
  | nil => intro s h; exact h
  | cons x xs ih => intro s h; exact ih (nodup_insSet h)

theorem mem_gatherIds_aux {g : Record → List String} {l : List Entry} :
    ∀ {acc : List String} {y : String},
      y ∈ l.foldl
          (fun acc e => match e.obj with
            | some o => addAll acc (g o)
            | none => acc) acc ↔
        y ∈ acc ∨ ∃ e ∈ l, ∃ o, e.obj = some o ∧ y ∈ g o := by
  induction l with
  | nil => simp
  | cons e l ih =>
      intro acc y
      rw [List.foldl_cons]
      cases he : e.obj with
      | none =>
          simp only [he]
          rw [ih]
          constructor
          · rintro (h | ⟨e', he', o, ho, hy⟩)
            · exact Or.inl h
            · exact Or.inr ⟨e', List.mem_cons_of_mem _ he', o, ho, hy⟩
          · rintro (h | ⟨e', he', o, ho, hy⟩)
            · exact Or.inl h
            · rcases List.mem_cons.mp he' with rfl | he'
              · rw [he] at ho; exact Option.noConfusion ho
              · exact Or.inr ⟨e', he', o, ho, hy⟩
      | some o =>
          simp only [he]
          rw [ih, mem_addAll]
          constructor
          · rintro ((h | h) | ⟨e', he', o', ho', hy⟩)
            · exact Or.inl h
            · exact Or.inr ⟨e, List.mem_cons_self _ _, o, he, h⟩
            · exact Or.inr ⟨e', List.mem_cons_of_mem _ he', o', ho', hy⟩
          · rintro (h | ⟨e', he', o', ho', hy⟩)
            · exact Or.inl (Or.inl h)
            · rcases List.mem_cons.mp he' with rfl | he'
              · rw [he] at ho'
                exact Or.inl (Or.inr (by injection ho' with h'; rwa [h']))
              · exact Or.inr ⟨e', he', o', ho', hy⟩

theorem mem_gatherIds {g : Record → List String} {l : List Entry} {y : String} :
    y ∈ gatherIds g l ↔ ∃ e ∈ l, ∃ o, e.obj = some o ∧ y ∈ g o := by
  unfold gatherIds
  rw [mem_gatherIds_aux]
  simp

theorem nodup_gatherIds_aux {g : Record → List String} {l : List Entry} :
    ∀ {acc : List String}, acc.Nodup →
      (l.foldl
          (fun acc e => match e.obj with
            | some o => addAll acc (g o)
            | none => acc) acc).Nodup := by
  induction l with
  | nil => intro acc h; exact h
  | cons e l ih =>
      intro acc h
      rw [List.foldl_cons]
      cases he : e.obj with
      | none => simpa only [he] using ih h
      | some o => simpa only [he] using ih (nodup_addAll h)

theorem nodup_gatherIds {g : Record → List String} {l : List Entry} :
    (gatherIds g l).Nodup :=
  nodup_gatherIds_aux List.nodup_nil

theorem gatherIds_eq_nil {g : Record → List String} {l : List Entry}
    (h : ∀ o, g o = []) : gatherIds g l = [] := by
  rw [List.eq_nil_iff_forall_not_mem]
  intro y hy
  rcases mem_gatherIds.mp hy with ⟨e, _, o, _, hyo⟩
  rw [h o] at hyo
  exact List.not_mem_nil y hyo

/-! ## The removal set -/

theorem mem_removeIdsOf {entries : List Entry} {x : String} :
    x ∈ removeIdsOf entries ↔
      x ∈ brokenAssistantIds entries ∨
      x ∈ orphanResultIds entries (brokenToolCallIds entries) ∨
      x ∈ cascadeErrorIds entries (brokenToolCallIds entries) := by
  unfold removeIdsOf
  rw [mem_addAll, mem_addAll]
  tauto

theorem nodup_removeIdsOf {entries : List Entry} : (removeIdsOf entries).Nodup :=
  nodup_addAll (nodup_addAll nodup_gatherIds)

theorem broken_subset_remove {entries : List Entry} {x : String}
    (h : x ∈ brokenAssistantIds entries) : x ∈ removeIdsOf entries :=
  mem_removeIdsOf.mpr (Or.inl h)

/-! ## Shape of `analyze_session`'s result -/

theorem analyze_corrupted_iff {entries : List Entry} :
    (analyze_session entries).corrupted = true ↔
      entries ≠ [] ∧ ¬(removeIdsOf entries = [] ∧ unparseableOf entries = []) := by
  unfold analyze_session
  by_cases h0 : entries.isEmpty
  · simp [h0, cleanReport, List.isEmpty_iff.mp h0]
  · rw [if_neg h0]
    by_cases h1 : ((removeIdsOf entries).isEmpty && (unparseableOf entries).isEmpty) = true
    · rw [if_pos h1, Bool.and_eq_true, List.isEmpty_iff, List.isEmpty_iff] at *
      simp [cleanReport, h1.1, h1.2]
    · rw [if_neg h1]
      rw [Bool.and_eq_true, List.isEmpty_iff, List.isEmpty_iff] at h1
      simp only [corruptReport]
      constructor
      · intro _
        exact ⟨fun he => h0 (by simp [he]), fun hc => h1 ⟨hc.1, hc.2⟩⟩
      · intro _
        trivial

theorem analyze_eq_corrupt_of_corrupted {entries : List Entry}
    (h : (analyze_session entries).corrupted = true) :
    analyze_session entries = corruptReport entries := by
  rcases analyze_corrupted_iff.mp h with ⟨h0, h1⟩
  unfold analyze_session
  rw [if_neg (by simpa using h0), if_neg]
  intro hb
  rw [Bool.and_eq_true, List.isEmpty_iff, List.isEmpty_iff] at hb
  exact h1 hb

theorem analyze_not_corrupted_apply {entries : List Entry}
    (h : (analyze_session entries).corrupted = false) :
    apply_fix entries (analyze_session entries) = entries := by
  unfold apply_fix
  rw [h]
  simp

theorem analyze_remove_ids_cases (entries : List Entry) :
    (analyze_session entries).remove_ids = [] ∨
      analyze_session entries = corruptReport entries := by
  cases hc : (analyze_session entries).corrupted with
  | true => exact Or.inr (analyze_eq_corrupt_of_corrupted hc)
  | false =>
      left
      unfold analyze_session at *
      by_cases h0 : entries.isEmpty
      · simp [h0, cleanReport]
      · rw [if_neg h0] at *
        by_cases h1 : ((removeIdsOf entries).isEmpty && (unparseableOf entries).isEmpty) = true
        · simp [h1, cleanReport]
        · rw [if_neg h1] at hc
          exact absurd hc (by simp [corruptReport])

/-! ## The applier -/

theorem fixStep_passthrough (e : Entry) : fixStep [] [] e = some (e.obj, e.raw) := by
  unfold fixStep
  cases e.obj with
  | none => rfl
  | some o => rfl

theorem filterMap_eq_map_of_forall_some {α β : Type} {f : α → Option β} {g : α → β}
    (h : ∀ a, f a = some (g a)) : ∀ l : List α, l.filterMap f = l.map g := by
  intro l
  induction l with
  | nil => rfl
  | cons a l ih => rw [List.filterMap_cons, h a, List.map_cons, ih]

theorem mem_renumberFrom {l : List (Option Record × String)} :
    ∀ {n : Nat} {e : Entry}, e ∈ renumberFrom n l → (e.obj, e.raw) ∈ l := by
  induction l with
  | nil => intro n e h; exact absurd h (List.not_mem_nil e)
  | cons p l ih =>
      intro n e h
      cases p with
      | mk o r =>
          rcases List.mem_cons.mp h with rfl | h
          · exact List.mem_cons_self _ _
          · exact List.mem_cons_of_mem _ (ih h)

theorem pair_mem_renumberFrom {l : List (Option Record × String)} :
    ∀ {n : Nat} {p : Option Record × String}, p ∈ l →
      ∃ e ∈ renumberFrom n l, e.obj = p.1 ∧ e.raw = p.2 := by
  induction l with
  | nil => intro n p h; exact absurd h (List.not_mem_nil p)
  | cons q l ih =>
      intro n p h
      cases q with
      | mk o r =>
          rcases List.mem_cons.mp h with rfl | h
          · exact ⟨⟨n, o, r⟩, List.mem_cons_self _ _, rfl, rfl⟩
          · rcases ih (n := n + 1) h with ⟨e, he, h1, h2⟩
            exact ⟨e, List.mem_cons_of_mem _ he, h1, h2⟩

theorem strip_renumberFrom (l : List (Option Record × String)) :
    ∀ n, (renumberFrom n l).map (fun e => (e.obj, e.raw)) = l := by
  induction l with
  | nil => intro n; rfl
  | cons p l ih =>
      intro n
      cases p with
      | mk o r => rw [show renumberFrom n ((o, r) :: l) = ⟨n, o, r⟩ :: renumberFrom (n + 1) l from rfl,
          List.map_cons, ih]

theorem mem_apply_fix_corrupt {entries : List Entry} {rep : Report}
    (hc : rep.corrupted = true) {e' : Entry} (h : e' ∈ apply_fix entries rep) :
    ∃ e ∈ entries, fixStep rep.remove_ids rep.parent_fixes e = some (e'.obj, e'.raw) := by
  unfold apply_fix at h
  rw [hc] at h
  simp only [if_pos] at h
  exact List.mem_filterMap.mp (mem_renumberFrom h)

theorem fixStep_some_obj {rem : List String} {pf : List (String × String)} {e : Entry}
    {o' : Record} {raw' : String}
    (h : fixStep rem pf e = some (some o', raw')) :
    ∃ o, e.obj = some o ∧ rem.contains (get_id o) = false ∧ get_id o' = get_id o ∧
      ((o' = o ∧ raw' = e.raw ∧ lookupFix pf (get_parent_id o) = none) ∨
        (∃ w, lookupFix pf (get_parent_id o) = some w ∧ o' = { o with parentId := w })) := by
  unfold fixStep at h
  cases he : e.obj with
  | none =>
      rw [he] at h
      simp at h
  | some o =>
      rw [he] at h
      dsimp only at h
      by_cases hrem : rem.contains (get_id o) = true
      · rw [if_pos hrem] at h
        exact Option.noConfusion h
      · rw [if_neg hrem] at h
        rw [Bool.not_eq_true] at hrem
        cases hl : lookupFix pf (get_parent_id o) with
        | none =>
            rw [hl] at h
            injection h with h
            have h1 : some o = some o' := congrArg Prod.fst h
            have h2 : e.raw = raw' := congrArg Prod.snd h
            injection h1 with h1
            exact ⟨o, rfl, hrem, by rw [← h1], Or.inl ⟨h1.symm, h2.symm, hl⟩⟩
        | some w =>
            rw [hl] at h
            injection h with h
            have h1 : some ({ o with parentId := w } : Record) = some o' := congrArg Prod.fst h
            injection h1 with h1
            refine ⟨o, rfl, hrem, ?_, Or.inr ⟨w, hl, h1.symm⟩⟩
            rw [← h1]
            rfl

/-- Rewriting `parentId` does not change the message, hence not the
classification. -/
theorem isBroken_set_parent (o : Record) (w : String) :
    isBrokenAssistant { o with parentId := w } = isBrokenAssistant o := rfl

theorem survivor_char {entries : List Entry} {e' : Entry} {o' : Record}
    (h : e' ∈ engineRun entries) (ho : e'.obj = some o') :
    ∃ e ∈ entries, ∃ o, e.obj = some o ∧
      (analyze_session entries).remove_ids.contains (get_id o) = false ∧
      get_id o' = get_id o ∧ (o' = o ∨ ∃ w, o' = { o with parentId := w }) := by
  unfold engineRun at h
  cases hc : (analyze_session entries).corrupted with
  | false =>
      rw [analyze_not_corrupted_apply hc] at h
      rcases analyze_remove_ids_cases entries with hr | hr
      · exact ⟨e', h, o', ho, by rw [hr]; rfl, rfl, Or.inl rfl⟩
      · rw [hr] at hc
        exact absurd hc (by simp [corruptReport])
  | true =>
      rcases mem_apply_fix_corrupt hc h with ⟨e, he, hstep⟩
      rw [ho] at hstep
      rcases fixStep_some_obj hstep with ⟨o, hobj, hrem, hid, hcases⟩
      refine ⟨e, he, o, hobj, hrem, hid, ?_⟩
      rcases hcases with ⟨h1, _, _⟩ | ⟨w, _, h1⟩
      · exact Or.inl h1
      · exact Or.inr ⟨w, h1⟩

theorem analyze_session_cases (entries : List Entry) :
    (entries = [] ∧ analyze_session entries = cleanReport 0) ∨
    (removeIdsOf entries = [] ∧ unparseableOf entries = [] ∧
      analyze_session entries = cleanReport entries.length) ∨
    analyze_session entries = corruptReport entries := by
  unfold analyze_session
  by_cases h0 : entries.isEmpty = true
  · exact Or.inl ⟨List.isEmpty_iff.mp h0, by rw [if_pos h0]⟩
  · rw [if_neg h0]
    by_cases h1 : ((removeIdsOf entries).isEmpty && (unparseableOf entries).isEmpty) = true
    · have h1' := h1
      rw [Bool.and_eq_true, List.isEmpty_iff, List.isEmpty_iff] at h1'
      exact Or.inr (Or.inl ⟨h1'.1, h1'.2, by rw [if_pos h1]⟩)
    · exact Or.inr (Or.inr (by rw [if_neg h1]))

theorem survivor_not_broken {entries : List Entry} {e' : Entry} {o' : Record}
    (h : e' ∈ engineRun entries) (ho : e'.obj = some o') :
    isBrokenAssistant o' = false := by
  rcases survivor_char h ho with ⟨e, he, o, hobj, hrem, _, hform⟩
  have hbo : isBrokenAssistant o' = isBrokenAssistant o := by
    rcases hform with rfl | ⟨w, rfl⟩
    · rfl
    · exact isBroken_set_parent o w
  cases hb : isBrokenAssistant o' with
  | false => rfl
  | true =>
      exfalso
      rw [hbo] at hb
      have hmem : get_id o ∈ brokenAssistantIds entries :=
        mem_gatherIds.mpr ⟨e, he, o, hobj, by rw [hb]; exact List.mem_singleton.mpr rfl⟩
      have hmem' : get_id o ∈ removeIdsOf entries := broken_subset_remove hmem
      rcases analyze_session_cases entries with ⟨h0, _⟩ | ⟨hrm, _, _⟩ | hcorr
      · subst h0; exact absurd he (List.not_mem_nil e)
      · rw [hrm] at hmem'
        exact List.not_mem_nil _ hmem'
      · rw [hcorr] at hrem
        rw [contains_false_iff] at hrem
        exact hrem hmem'

theorem brokenAssistantIds_engineRun (entries : List Entry) :
    brokenAssistantIds (engineRun entries) = [] := by
  rw [List.eq_nil_iff_forall_not_mem]
  intro y hy
  rcases mem_gatherIds.mp hy with ⟨e', he', o', ho', hyg⟩
  have := survivor_not_broken he' ho'
  rw [this] at hyg
  exact List.not_mem_nil y hyg

theorem brokenToolCallIds_engineRun (entries : List Entry) :
    brokenToolCallIds (engineRun entries) = [] := by
  rw [List.eq_nil_iff_forall_not_mem]
  intro y hy
  rcases mem_gatherIds.mp hy with ⟨e', he', o', ho', hyg⟩
  have := survivor_not_broken he' ho'
  rw [this] at hyg
  exact List.not_mem_nil y hyg

theorem removeIdsOf_engineRun (entries : List Entry) :
    removeIdsOf (engineRun entries) = [] := by
  have horphan : orphanResultIds (engineRun entries) [] = [] := by
    apply gatherIds_eq_nil
    intro o
    cases get_tool_result_id o with
    | none => rfl
    | some t => simp
  have hcascade : cascadeErrorIds (engineRun entries) [] = [] := by
    apply gatherIds_eq_nil
    intro o
    simp
  unfold removeIdsOf
  rw [brokenToolCallIds_engineRun, brokenAssistantIds_engineRun, horphan, hcascade]
  rfl

theorem apply_fix_corrupt {entries : List Entry} {rep : Report} (h : rep.corrupted = true) :
    apply_fix entries rep =
      renumberFrom 1 (entries.filterMap (fixStep rep.remove_ids rep.parent_fixes)) := by
  unfold apply_fix
  rw [h]
  simp

theorem apply_fix_clean {entries : List Entry} {rep : Report} (h : rep.corrupted = false) :
    apply_fix entries rep = entries := by
  unfold apply_fix
  rw [h]
  simp

/-! ## Idempotence of the engine -/

theorem engineRun_of_clean {entries : List Entry}
    (h1 : removeIdsOf entries = []) (h2 : unparseableOf entries = []) :
    engineRun entries = entries := by
  rcases analyze_session_cases entries with ⟨h0, hrep⟩ | ⟨_, _, hrep⟩ | hcorr
  · show apply_fix entries (analyze_session entries) = entries
    rw [hrep]
    exact apply_fix_clean rfl
  · show apply_fix entries (analyze_session entries) = entries
    rw [hrep]
    exact apply_fix_clean rfl
  · exfalso
    have hc : (analyze_session entries).corrupted = true := by rw [hcorr]; rfl
    exact (analyze_corrupted_iff.mp hc).2 ⟨h1, h2⟩

theorem engineRun_engineRun (entries : List Entry) :
    engineRun (engineRun entries) = engineRun entries := by
  cases hc : (analyze_session entries).corrupted with
  | false =>
      have h1 : engineRun entries = entries := analyze_not_corrupted_apply hc
      rw [h1, h1]
  | true =>
      have hout : engineRun entries =
          renumberFrom 1 (entries.filterMap
            (fixStep (analyze_session entries).remove_ids
              (analyze_session entries).parent_fixes)) := by
        show apply_fix entries (analyze_session entries) = _
        exact apply_fix_corrupt hc
      rcases analyze_session_cases (engineRun entries) with ⟨_, horep⟩ | ⟨_, _, horep⟩ | hocorr
      · show apply_fix (engineRun entries) (analyze_session (engineRun entries)) = _
        rw [horep]
        exact apply_fix_clean rfl
      · show apply_fix (engineRun entries) (analyze_session (engineRun entries)) = _
        rw [horep]
        exact apply_fix_clean rfl
      · have hre : (corruptReport (engineRun entries)).remove_ids = [] :=
          removeIdsOf_engineRun entries
        have hpf : (corruptReport (engineRun entries)).parent_fixes = [] := by
          show parentFixesOf (idToParent (engineRun entries)) (removeIdsOf (engineRun entries)) = []
          rw [removeIdsOf_engineRun]
          rfl
        have h2 : engineRun (engineRun entries) =
            renumberFrom 1 ((engineRun entries).filterMap (fixStep [] [])) := by
          show apply_fix (engineRun entries) (analyze_session (engineRun entries)) = _
          rw [hocorr, apply_fix_corrupt (rfl : (corruptReport (engineRun entries)).corrupted = true),
            hre, hpf]
        rw [h2, filterMap_eq_map_of_forall_some fixStep_passthrough]
        rw [hout, strip_renumberFrom]

/-! ## No unparseable lines left behind -/

theorem fixStep_none_obj {rem : List String} {pf : List (String × String)} {e : Entry}
    {raw' : String} (h : fixStep rem pf e = some (none, raw')) : e.obj = none := by
  cases he : e.obj with
  | none => rfl
  | some o =>
      exfalso
      unfold fixStep at h
      rw [he] at h
      dsimp only at h
      by_cases hrem : rem.contains (get_id o) = true
      · rw [if_pos hrem] at h
        exact Option.noConfusion h
      · rw [if_neg hrem] at h
        cases hl : lookupFix pf (get_parent_id o) with
        | none =>
            rw [hl] at h
            injection h with h
            exact Option.noConfusion (congrArg Prod.fst h)
        | some w =>
            rw [hl] at h
            injection h with h
            exact Option.noConfusion (congrArg Prod.fst h)

theorem engineRun_all_parsed {entries : List Entry}
    (h : ∀ e ∈ entries, e.obj.isSome = true) :
    ∀ e' ∈ engineRun entries, e'.obj.isSome = true := by
  intro e' he'
  cases hc : (analyze_session entries).corrupted with
  | false =>
      unfold engineRun at he'
      rw [analyze_not_corrupted_apply hc] at he'
      exact h e' he'
  | true =>
      rcases mem_apply_fix_corrupt hc he' with ⟨e, he, hstep⟩
      cases ho' : e'.obj with
      | some o' => rfl
      | none =>
          rw [ho'] at hstep
          have := fixStep_none_obj hstep
          have hs := h e he
          rw [this] at hs
          exact Bool.noConfusion hs

theorem unparseableOf_engineRun {entries : List Entry}
    (h : ∀ e ∈ entries, e.obj.isSome = true) :
    unparseableOf (engineRun entries) = [] := by
  unfold unparseableOf
  rw [List.filterMap_eq_nil_iff]
  intro e' he'
  have := engineRun_all_parsed h e' he'
  cases ho : e'.obj with
  | some o => simp [ho]
  | none => rw [ho] at this; exact Bool.noConfusion this

/-! ## The remap walk: termination and correctness -/

theorem chainFrom_succ (m : List (String × String)) (x : String) (n : Nat) :
    chainFrom m x (n + 1) = lookupPar m (chainFrom m x n) := rfl

theorem succ_mod_eq (d p : Nat) (hp : 0 < p) : (d + 1) % p = (d % p + 1) % p := by
  by_cases hp1 : p = 1
  · subst hp1
    rw [Nat.mod_one, Nat.mod_one]
  · have h1 : 1 % p = 1 := Nat.mod_eq_of_lt (by omega)
    conv_lhs => rw [Nat.add_mod, h1]

theorem chainFrom_periodic {m : List (String × String)} {x : String} {i j : Nat}
    (hij : i < j) (heq : chainFrom m x i = chainFrom m x j) :
    ∀ d, chainFrom m x (i + d) = chainFrom m x (i + d % (j - i)) := by
  have hp : 0 < j - i := by omega
  intro d
  induction d with
  | zero => rw [Nat.zero_mod]
  | succ d ih =>
      have hstep : chainFrom m x (i + (d + 1)) = chainFrom m x ((i + d % (j - i)) + 1) := by
        rw [show i + (d + 1) = (i + d) + 1 from by omega, chainFrom_succ, ih, ← chainFrom_succ]
      have hlt : d % (j - i) < j - i := Nat.mod_lt d hp
      by_cases hb : d % (j - i) + 1 < j - i
      · have hmod : (d + 1) % (j - i) = d % (j - i) + 1 := by
          rw [succ_mod_eq d _ hp, Nat.mod_eq_of_lt hb]
        rw [hstep, hmod, show i + (d % (j - i) + 1) = (i + d % (j - i)) + 1 from by omega]
      · have hb' : d % (j - i) + 1 = j - i := by omega
        have hmod : (d + 1) % (j - i) = 0 := by
          rw [succ_mod_eq d _ hp, hb', Nat.mod_self]
        rw [hstep, hmod, Nat.add_zero, show (i + d % (j - i)) + 1 = j from by omega, ← heq]
        rfl

theorem chain_escape_distinct {m : List (String × String)} {x : String} {rem : List String}
    {N : Nat} (hmin : ∀ k < N, chainFrom m x k ∈ rem) (hN : chainFrom m x N ∉ rem) :
    ∀ i j, i < j → j < N → chainFrom m x i ≠ chainFrom m x j := by
  intro i j hij hjN heq
  have hper := chainFrom_periodic hij heq (N - i)
  rw [show i + (N - i) = N from by omega] at hper
  have hlt : (N - i) % (j - i) < j - i := Nat.mod_lt _ (by omega)
  have hidx : i + (N - i) % (j - i) < N := by omega
  exact hN (by rw [hper]; exact hmin _ hidx)

theorem escape_le_length {m : List (String × String)} {x : String} {rem : List String}
    {N : Nat} (hmin : ∀ k < N, chainFrom m x k ∈ rem) (hN : chainFrom m x N ∉ rem) :
    N ≤ rem.length := by
  have hnd : ((List.range N).map (chainFrom m x)).Nodup := by
    apply List.Nodup.map_on _ (List.nodup_range N)
    intro a ha b hb hfab
    rw [List.mem_range] at ha hb
    by_contra hne
    rcases Nat.lt_or_ge a b with h | h
    · exact chain_escape_distinct hmin hN a b h hb hfab
    · exact chain_escape_distinct hmin hN b a (by omega) ha hfab.symm
  have hsub : ((List.range N).map (chainFrom m x)).toFinset ⊆ rem.toFinset := by
    intro y hy
    rw [List.mem_toFinset] at hy
    rcases List.mem_map.mp hy with ⟨k, hk, rfl⟩
    rw [List.mem_range] at hk
    rw [List.mem_toFinset]
    exact hmin k hk
  calc N = ((List.range N).map (chainFrom m x)).length := by simp
    _ = ((List.range N).map (chainFrom m x)).toFinset.card :=
        (List.toFinset_card_of_nodup hnd).symm
    _ ≤ rem.toFinset.card := Finset.card_le_card hsub
    _ ≤ rem.length := rem.toFinset_card_le

theorem remapWalk_sim {m : List (String × String)} {rem : List String} {x : String} {N : Nat}
    (hmin : ∀ k < N, chainFrom m x k ∈ rem) (hN : chainFrom m x N ∉ rem) :
    ∀ fuel k seen, 1 ≤ k → k ≤ N → N - k < fuel →
      (∀ y : String, y ∈ seen ↔ ∃ j, j < k ∧ chainFrom m x j = y) →
      remapWalk m rem (chainFrom m x k) seen fuel = chainFrom m x N := by
  intro fuel
  induction fuel with
  | zero => intro k seen _ _ h3 _; omega
  | succ f ih =>
      intro k seen hk1 hkN h3 hseen
      by_cases hkeq : k = N
      · subst hkeq
        unfold remapWalk
        rw [if_neg (fun hcon => hN (mem_of_contains hcon))]
      · have hkN' : k < N := by omega
        unfold remapWalk
        rw [if_pos (contains_of_mem (hmin k hkN'))]
        rw [if_neg (fun hcon => by
          rcases (hseen _).mp (mem_of_contains hcon) with ⟨j, hj, hjeq⟩
          exact chain_escape_distinct hmin hN j k hj hkN' hjeq)]
        rw [show lookupPar m (chainFrom m x k) = chainFrom m x (k + 1) from rfl]
        apply ih (k + 1) _ (by omega) (by omega) (by omega)
        intro y
        rw [mem_insSet, hseen y]
        constructor
        · rintro (⟨j, hj, hje⟩ | rfl)
          · exact ⟨j, by omega, hje⟩
          · exact ⟨k, by omega, rfl⟩
        · rintro ⟨j, hj, hje⟩
          by_cases hjk : j = k
          · subst hjk
            exact Or.inr hje.symm
          · exact Or.inl ⟨j, by omega, hje⟩

theorem remapWalk_escape {m : List (String × String)} {rem : List String} {rid : String}
    (hrid : rid ∈ rem) (hesc : ∃ n, chainFrom m rid n ∉ rem) :
    ∃ N, 0 < N ∧ (∀ k < N, chainFrom m rid k ∈ rem) ∧ chainFrom m rid N ∉ rem ∧
      remapWalk m rem (lookupPar m rid) [rid] (rem.length + 1) = chainFrom m rid N := by
  classical
  have hN : chainFrom m rid (Nat.find hesc) ∉ rem := Nat.find_spec hesc
  have hmin : ∀ k < Nat.find hesc, chainFrom m rid k ∈ rem := fun k hk =>
    not_not.mp (Nat.find_min hesc hk)
  have hNpos : 0 < Nat.find hesc := by
    rcases Nat.eq_zero_or_pos (Nat.find hesc) with h0 | h
    · exfalso
      rw [h0] at hN
      exact hN hrid
    · exact h
  have hlen : Nat.find hesc ≤ rem.length := escape_le_length hmin hN
  refine ⟨Nat.find hesc, hNpos, hmin, hN, ?_⟩
  rw [show lookupPar m rid = chainFrom m rid 1 from rfl]
  apply remapWalk_sim hmin hN (rem.length + 1) 1 [rid] (le_refl 1) hNpos (by omega)
  intro y
  simp only [List.mem_singleton]
  constructor
  · rintro rfl
    exact ⟨0, by omega, rfl⟩
  · rintro ⟨j, hj, hje⟩
    have : j = 0 := by omega
    subst this
    exact hje.symm

/-! ## Looking up `parent_fixes` -/

theorem find_map_key {α : Type} {f : String → α} {l : List String} {k : String} (h : k ∈ l) :
    (l.map (fun r => (r, f r))).find? (fun p => p.1 == k) = some (k, f k) := by
  induction l with
  | nil => exact absurd h (List.not_mem_nil k)
  | cons r l ih =>
      rw [List.map_cons]
      by_cases hr : r = k
      · subst hr
        exact List.find?_cons_of_pos _ (by simp)
      · rw [List.find?_cons_of_neg _ (by simp [hr])]
        rcases List.mem_cons.mp h with rfl | h
        · exact absurd rfl hr
        · exact ih h

theorem lookupFix_parentFixesOf {m : List (String × String)} {rem : List String} {rid : String}
    (h : rid ∈ rem) :
    lookupFix (parentFixesOf m rem) rid =
      some (remapWalk m rem (lookupPar m rid) [rid] (rem.length + 1)) := by
  unfold lookupFix parentFixesOf
  rw [find_map_key h]
  rfl

theorem lookupFix_parentFixesOf_none {m : List (String × String)} {rem : List String}
    {rid : String} (h : rid ∉ rem) :
    lookupFix (parentFixesOf m rem) rid = none := by
  unfold lookupFix parentFixesOf
  rw [List.find?_eq_none.mpr]
  · rfl
  · intro p hp hbeq
    rcases List.mem_map.mp hp with ⟨r, hr, rfl⟩
    have : r = rid := eq_of_beq hbeq
    exact h (this ▸ hr)

theorem mem_of_lookupFix_some {m : List (String × String)} {rem : List String}
    {rid w : String} (h : lookupFix (parentFixesOf m rem) rid = some w) : rid ∈ rem := by
  by_contra hn
  rw [lookupFix_parentFixesOf_none hn] at h
  exact Option.noConfusion h

/-! ## The parent map and record survival -/

theorem mem_idToParent_aux {l : List Entry} :
    ∀ {acc : List (String × String)} {p : String × String},
      p ∈ l.foldl
          (fun acc e => match e.obj with
            | some o => acc ++ [(get_id o, get_parent_id o)]
            | none => acc) acc ↔
        p ∈ acc ∨ ∃ e ∈ l, ∃ o, e.obj = some o ∧ p = (get_id o, get_parent_id o) := by
  induction l with
  | nil => simp
  | cons e l ih =>
      intro acc p
      rw [List.foldl_cons]
      cases he : e.obj with
      | none =>
          simp only [he]
          rw [ih]
          constructor
          · rintro (h | ⟨e', he', o, ho, hp⟩)
            · exact Or.inl h
            · exact Or.inr ⟨e', List.mem_cons_of_mem _ he', o, ho, hp⟩
          · rintro (h | ⟨e', he', o, ho, hp⟩)
            · exact Or.inl h
            · rcases List.mem_cons.mp he' with rfl | he'
              · rw [he] at ho; exact Option.noConfusion ho
              · exact Or.inr ⟨e', he', o, ho, hp⟩
      | some o =>
          simp only [he]
          rw [ih]
          constructor
          · rintro (h | ⟨e', he', o', ho', hp⟩)
            · rcases List.mem_append.mp h with h | h
              · exact Or.inl h
              · rcases List.mem_singleton.mp h with rfl
                exact Or.inr ⟨e, List.mem_cons_self _ _, o, he, rfl⟩
            · exact Or.inr ⟨e', List.mem_cons_of_mem _ he', o', ho', hp⟩
          · rintro (h | ⟨e', he', o', ho', hp⟩)
            · exact Or.inl (List.mem_append.mpr (Or.inl h))
            · rcases List.mem_cons.mp he' with rfl | he'
              · rw [he] at ho'
                injection ho' with ho'
                subst ho'
                exact Or.inl (List.mem_append.mpr (Or.inr (List.mem_singleton.mpr hp)))
              · exact Or.inr ⟨e', he', o', ho', hp⟩

theorem mem_idToParent {entries : List Entry} {p : String × String} :
    p ∈ idToParent entries ↔
      ∃ e ∈ entries, ∃ o, e.obj = some o ∧ p = (get_id o, get_parent_id o) := by
  unfold idToParent
  rw [mem_idToParent_aux]
  simp

theorem lookupPar_shape (m : List (String × String)) (k : String) :
    lookupPar m k = "" ∨ ∃ p ∈ m, lookupPar m k = p.2 := by
  unfold lookupPar
  cases hf : m.reverse.find? (fun p => p.1 == k) with
  | none => exact Or.inl rfl
  | some p => exact Or.inr ⟨p, List.mem_reverse.mp (List.mem_of_find?_eq_some hf), rfl⟩

/-- A parsed record whose id is not in the removal set is present in the
corrected output, under the same id. -/
theorem id_survives {entries : List Entry} {e : Entry} {o : Record}
    (he : e ∈ entries) (ho : e.obj = some o)
    (hrm : (analyze_session entries).remove_ids.contains (get_id o) = false) :
    ∃ e' ∈ engineRun entries, ∃ o', e'.obj = some o' ∧ get_id o' = get_id o := by
  cases hc : (analyze_session entries).corrupted with
  | false =>
      have heq : engineRun entries = entries := analyze_not_corrupted_apply hc
      rw [heq]
      exact ⟨e, he, o, ho, rfl⟩
  | true =>
      have hstep : ∃ pr : Option Record × String,
          fixStep (analyze_session entries).remove_ids (analyze_session entries).parent_fixes e =
              some pr ∧
            ∃ o', pr.1 = some o' ∧ get_id o' = get_id o := by
        unfold fixStep
        rw [ho]
        dsimp only
        rw [if_neg (fun hcon => by rw [hrm] at hcon; exact Bool.noConfusion hcon)]
        cases hl : lookupFix (analyze_session entries).parent_fixes (get_parent_id o) with
        | none => exact ⟨(some o, e.raw), rfl, o, rfl, rfl⟩
        | some w =>
            exact ⟨(some { o with parentId := w }, dumps { o with parentId := w }), rfl,
              { o with parentId := w }, rfl, rfl⟩
      rcases hstep with ⟨pr, hpr, o', ho', hid⟩
      have hmem : pr ∈ entries.filterMap
          (fixStep (analyze_session entries).remove_ids (analyze_session entries).parent_fixes) :=
        List.mem_filterMap.mpr ⟨e, he, hpr⟩
      rcases pair_mem_renumberFrom (n := 1) hmem with ⟨e', he', h1, h2⟩
      have hout : engineRun entries =
          renumberFrom 1 (entries.filterMap
            (fixStep (analyze_session entries).remove_ids
              (analyze_session entries).parent_fixes)) := by
        show apply_fix entries (analyze_session entries) = _
        exact apply_fix_corrupt hc
      rw [hout]
      exact ⟨e', he', o', by rw [h1]; exact ho', hid⟩

/-! ## Closure and escape hypotheses, unpacked -/

theorem parentClosure_spec {entries : List Entry} (h : parentClosure entries = true) :
    ∀ e ∈ entries, ∀ o : Record, e.obj = some o →
      get_parent_id o = "" ∨
        ∃ e' ∈ entries, ∃ o', e'.obj = some o' ∧ get_id o' = get_parent_id o := by
  intro e he o ho
  rw [parentClosure, List.all_eq_true] at h
  have h1 := h e he
  rw [ho] at h1
  dsimp only at h1
  rw [parentPresent, Bool.or_eq_true] at h1
  rcases h1 with h1 | h1
  · exact Or.inl (eq_of_beq h1)
  · right
    rw [List.any_eq_true] at h1
    rcases h1 with ⟨e', he', h2⟩
    cases ho' : e'.obj with
    | none => rw [ho'] at h2; exact absurd h2 (by simp)
    | some o' =>
        rw [ho'] at h2
        dsimp only at h2
        exact ⟨e', he', o', ho', eq_of_beq h2⟩

theorem allChainsEscape_spec {entries : List Entry} (h : allChainsEscape entries = true) :
    ∀ rid ∈ removeIdsOf entries,
      ∃ n, chainFrom (idToParent entries) rid n ∉ removeIdsOf entries := by
  intro rid hrid
  rw [allChainsEscape, List.all_eq_true] at h
  have h1 := h rid hrid
  rw [escapeWithin, List.any_eq_true] at h1
  rcases h1 with ⟨n, _, hb⟩
  rw [Bool.not_eq_true'] at hb
  exact ⟨n, contains_false_iff.mp hb⟩

/-! ## Fuel stability of the remap walk -/

theorem remapWalk_stable {m : List (String × String)} {rem : List String} :
    ∀ (fuel : Nat) (anc : String) (seen : List String),
      (rem.toFinset \ seen.toFinset).card < fuel →
      ∀ extra, remapWalk m rem anc seen (fuel + extra) = remapWalk m rem anc seen fuel := by
  intro fuel
  induction fuel with
  | zero => intro anc seen h extra; omega
  | succ f ih =>
      intro anc seen h extra
      rw [show f + 1 + extra = (f + extra) + 1 from by omega]
      unfold remapWalk
      split_ifs with h1 h2
      · rfl
      · have hanc_rem : anc ∈ rem := mem_of_contains h1
        have hanc_seen : anc ∉ seen := fun hmem => h2 (contains_of_mem hmem)
        have hins : (insSet seen anc).toFinset = insert anc seen.toFinset := by
          unfold insSet
          rw [if_neg (fun hcon => hanc_seen (mem_of_contains hcon))]
          rw [List.toFinset_append]
          simp [Finset.insert_eq, Finset.union_comm]
        have hsubset : rem.toFinset \ (insSet seen anc).toFinset ⊆
            rem.toFinset \ seen.toFinset := by
          rw [hins]
          exact Finset.sdiff_subset_sdiff (le_refl _) (Finset.subset_insert _ _)
        have hss : rem.toFinset \ (insSet seen anc).toFinset ⊂
            rem.toFinset \ seen.toFinset := by
          rw [Finset.ssubset_iff_of_subset hsubset]
          refine ⟨anc, ?_, ?_⟩
          · rw [Finset.mem_sdiff, List.mem_toFinset, List.mem_toFinset]
            exact ⟨hanc_rem, hanc_seen⟩
          · rw [hins]
            simp
        have hcard : (rem.toFinset \ (insSet seen anc).toFinset).card < f := by
          have := Finset.card_lt_card hss
          omega
        exact ih (lookupPar m anc) (insSet seen anc) hcard extra
      · rfl

theorem remapWalk_fuel_irrelevant (m : List (String × String)) (rem : List String)
    (anc : String) (seen : List String) (extra : Nat) :
    remapWalk m rem anc seen (rem.length + 1 + extra) =
      remapWalk m rem anc seen (rem.length + 1) := by
  apply remapWalk_stable
  have h1 : (rem.toFinset \ seen.toFinset).card ≤ rem.toFinset.card :=
    Finset.card_le_card (Finset.sdiff_subset)
  have h2 : rem.toFinset.card ≤ rem.length := rem.toFinset_card_le
  omega

theorem snd_mem_of_mem_enumFrom {α : Type} :
    ∀ {l : List α} {n : Nat} {p : Nat × α}, p ∈ l.enumFrom n → p.2 ∈ l := by
  intro l
  induction l with
  | nil => intro n p h; exact absurd h (List.not_mem_nil p)
  | cons a l ih =>
      intro n p h
      rcases List.mem_cons.mp h with rfl | h
      · exact List.mem_cons_self _ _
      · exact List.mem_cons_of_mem _ (ih h)

/-! ## The claims -/

/-- C1 (amended): for every input in which each record's `parent_id` is
empty or the id of some record of the input, and in which every removed
record's parent chain eventually leaves the removal set (no parent cycle
confined to removed records), every record of the corrected output has a
`parent_id` that is empty or equal to the id of a record present in the
corrected output. -/
theorem C1_no_dangling_references (entries : List Entry)
    (hclo : parentClosure entries = true) (hesc : allChainsEscape entries = true) :
    DanglingFree (engineRun entries) := by
  intro e' he' o' ho'
  cases hc : (analyze_session entries).corrupted with
  | false =>
      have heq : engineRun entries = entries := analyze_not_corrupted_apply hc
      rw [heq] at he' ⊢
      rcases parentClosure_spec hclo e' he' o' ho' with h | ⟨e2, he2, o2, ho2, hid⟩
      · exact Or.inl h
      · exact Or.inr ⟨e2, he2, o2, ho2, hid⟩
  | true =>
      have hcorr := analyze_eq_corrupt_of_corrupted hc
      rcases mem_apply_fix_corrupt hc he' with ⟨e, he, hstep⟩
      rw [ho'] at hstep
      rcases fixStep_some_obj hstep with ⟨o, hobj, hrem, hid, hform⟩
      rcases hform with ⟨rfl, _, hnone⟩ | ⟨w, hsome, rfl⟩
      · have hnone' : lookupFix (parentFixesOf (idToParent entries) (removeIdsOf entries))
            (get_parent_id o') = none := by
          rw [hcorr] at hnone
          exact hnone
        have hpid_not : get_parent_id o' ∉ removeIdsOf entries := by
          intro hmem
          have hsome2 := lookupFix_parentFixesOf (m := idToParent entries) hmem
          rw [hnone'] at hsome2
          exact Option.noConfusion hsome2
        rcases parentClosure_spec hclo e he o' hobj with h | ⟨e2, he2, o2, ho2, hid2⟩
        · exact Or.inl h
        · right
          have hrm2 : (analyze_session entries).remove_ids.contains (get_id o2) = false := by
            rw [hcorr, contains_false_iff]
            show get_id o2 ∉ removeIdsOf entries
            rw [hid2]
            exact hpid_not
          rcases id_survives he2 ho2 hrm2 with ⟨e3, he3, o3, ho3, hid3⟩
          exact ⟨e3, he3, o3, ho3, by rw [hid3, hid2]⟩
      · have hsome' : lookupFix (parentFixesOf (idToParent entries) (removeIdsOf entries))
            (get_parent_id o) = some w := by
          rw [hcorr] at hsome
          exact hsome
        have hpidmem : get_parent_id o ∈ removeIdsOf entries := mem_of_lookupFix_some hsome'
        rcases remapWalk_escape hpidmem (allChainsEscape_spec hesc _ hpidmem) with
          ⟨N, hNpos, hmin, hN, hwalk⟩
        have hw : w = chainFrom (idToParent entries) (get_parent_id o) N := by
          rw [lookupFix_parentFixesOf hpidmem, hwalk] at hsome'
          exact (Option.some.inj hsome').symm
        have hpo' : get_parent_id { o with parentId := w } = w := rfl
        have hwnot : w ∉ removeIdsOf entries := by
          rw [hw]
          exact hN
        obtain ⟨n, rfl⟩ : ∃ n, N = n + 1 := ⟨N - 1, by omega⟩
        rw [chainFrom_succ] at hw
        rcases lookupPar_shape (idToParent entries)
            (chainFrom (idToParent entries) (get_parent_id o) n) with hz | ⟨p, hp, hv⟩
        · left
          rw [hpo', hw, hz]
        · rcases mem_idToParent.mp hp with ⟨eX, heX, oX, hoX, rfl⟩
          have hwX : w = get_parent_id oX := by rw [hw, hv]
          rcases parentClosure_spec hclo eX heX oX hoX with hz2 | ⟨eY, heY, oY, hoY, hidY⟩
          · left
            rw [hpo', hwX, hz2]
          · right
            have hYnot : get_id oY ∉ removeIdsOf entries := by
              rw [hidY, ← hwX]
              exact hwnot
            have hrm2 : (analyze_session entries).remove_ids.contains (get_id oY) = false := by
              rw [hcorr, contains_false_iff]
              exact hYnot
            rcases id_survives heY hoY hrm2 with ⟨e3, he3, o3, ho3, hid3⟩
            refine ⟨e3, he3, o3, ho3, ?_⟩
            rw [hpo', hid3, hidY, ← hwX]

/-- C1, counterexample to the claim as stated: on the clean input
`ghostEntries` (one record whose `parentId` names no record) the engine
returns the sequence unchanged, and the output has a dangling parent
reference; the claim's "for every input" fails without an input-side
hypothesis. -/
theorem C1_counterexample : ¬ DanglingFree (engineRun ghostEntries) := by
  intro hdf
  have heng : engineRun ghostEntries = ghostEntries := rfl
  have hmem : (⟨1, some recX, "rawX"⟩ : Entry) ∈ engineRun ghostEntries := by
    rw [heng]
    exact List.mem_singleton.mpr rfl
  rcases hdf _ hmem recX rfl with h1 | ⟨e', he', o', ho', hid⟩
  · exact absurd h1 (by decide)
  · rw [heng] at he'
    have he2 : e' = ⟨1, some recX, "rawX"⟩ := List.mem_singleton.mp he'
    subst he2
    have ho2 : recX = o' := Option.some.inj ho'
    subst ho2
    exact absurd hid (by decide)

/-- Witness for C1 at the specification's scenario input. -/
theorem C1_witness :
    parentClosure exEntries = true ∧ allChainsEscape exEntries = true ∧
      DanglingFree (engineRun exEntries) :=
  ⟨by decide, by decide, C1_no_dangling_references exEntries (by decide) (by decide)⟩

/-- C2: at the failing input `c2Entries`, the poisoned set is `{T1}` and the
broken assistant `A` is removed, but the user record `U`, whose
`tool_result` content block references the poisoned `T1`, survives into the
corrected output still carrying that reference — `get_tool_result_ids_from_user`
is defined and documented (corruption pattern 4) but never called by the
analysis. -/
theorem C2_user_block_reference_survives :
    (analyze_session c2Entries).broken_tool_call_ids = ["T1"] ∧
    (analyze_session c2Entries).remove_ids = ["A"] ∧
    ∃ e ∈ engineRun c2Entries, ∃ o, e.obj = some o ∧
      get_tool_result_ids_from_user o = ["T1"] := by
  refine ⟨by decide, by decide, ?_⟩
  have heng : engineRun c2Entries =
      [⟨1, some { recU with parentId := "" }, dumps { recU with parentId := "" }⟩] := by decide
  rw [heng]
  exact ⟨_, List.mem_singleton.mpr rfl, { recU with parentId := "" }, rfl, by decide⟩

/-- C3: running the engine twice yields the same output as running it once,
and an input whose removal set and unparseable set are both empty passes
through unmodified. -/
theorem C3_engine_idempotent :
    (∀ entries : List Entry, engineRun (engineRun entries) = engineRun entries) ∧
    (∀ entries : List Entry, removeIdsOf entries = [] → unparseableOf entries = [] →
      engineRun entries = entries) :=
  ⟨engineRun_engineRun, fun _ h1 h2 => engineRun_of_clean h1 h2⟩

/-- Witness for C3: a corrupted input with an unparseable line, and a clean
input. -/
theorem C3_witness :
    engineRun (engineRun unpEntries) = engineRun unpEntries ∧
      engineRun cleanEntries = cleanEntries :=
  ⟨C3_engine_idempotent.1 unpEntries, C3_engine_idempotent.2 cleanEntries (by decide) (by decide)⟩

/-- C4: a surviving record whose `parentId` is not a key of `parent_fixes`
is emitted with its raw input line byte-identical. -/
theorem C4_untouched_lines_byte_identical (entries : List Entry) (e : Entry) (o : Record)
    (he : e ∈ entries) (ho : e.obj = some o)
    (hrm : (analyze_session entries).remove_ids.contains (get_id o) = false)
    (hpf : lookupFix (analyze_session entries).parent_fixes (get_parent_id o) = none) :
    e.raw ∈ (engineRun entries).map Entry.raw := by
  cases hc : (analyze_session entries).corrupted with
  | false =>
      have heq : engineRun entries = entries := analyze_not_corrupted_apply hc
      rw [heq]
      exact List.mem_map_of_mem _ he
  | true =>
      have hstep : fixStep (analyze_session entries).remove_ids
          (analyze_session entries).parent_fixes e = some (some o, e.raw) := by
        unfold fixStep
        rw [ho]
        dsimp only
        rw [if_neg (fun hcon => by rw [hrm] at hcon; exact Bool.noConfusion hcon), hpf]
      have hmem : (some o, e.raw) ∈ entries.filterMap
          (fixStep (analyze_session entries).remove_ids (analyze_session entries).parent_fixes) :=
        List.mem_filterMap.mpr ⟨e, he, hstep⟩
      rcases pair_mem_renumberFrom (n := 1) hmem with ⟨e', he', _, h2⟩
      have hout : engineRun entries =
          renumberFrom 1 (entries.filterMap
            (fixStep (analyze_session entries).remove_ids
              (analyze_session entries).parent_fixes)) := by
        show apply_fix entries (analyze_session entries) = _
        exact apply_fix_corrupt hc
      rw [hout]
      exact List.mem_map.mpr ⟨e', he', h2⟩

/-- Witness for C4: the untouched survivor `recS` of the duplicate-id input. -/
theorem C4_witness :
    (⟨3, some recS, "rawS"⟩ : Entry) ∈ dupEntries ∧
    (analyze_session dupEntries).remove_ids.contains (get_id recS) = false ∧
    lookupFix (analyze_session dupEntries).parent_fixes (get_parent_id recS) = none ∧
    "rawS" ∈ (engineRun dupEntries).map Entry.raw :=
  ⟨by decide, by decide, by decide,
    C4_untouched_lines_byte_identical dupEntries ⟨3, some recS, "rawS"⟩ recS (by decide) rfl
      (by decide) (by decide)⟩

/-- C5: for a removed id whose parent chain escapes the removal set (the
no-cycle-among-removed-records side condition), `parent_fixes` maps it to
the first element of its parent chain outside the removal set — the nearest
surviving (or absent/root) ancestor reached by skipping removed ancestors. -/
theorem C5_parent_remapper (entries : List Entry) (rid : String)
    (hrid : (analyze_session entries).remove_ids.contains rid = true)
    (hesc : ∃ n, chainFrom (idToParent entries) rid n ∉ (analyze_session entries).remove_ids) :
    ∃ N, 0 < N ∧
      (∀ k < N, chainFrom (idToParent entries) rid k ∈ (analyze_session entries).remove_ids) ∧
      chainFrom (idToParent entries) rid N ∉ (analyze_session entries).remove_ids ∧
      lookupFix (analyze_session entries).parent_fixes rid =
        some (chainFrom (idToParent entries) rid N) := by
  have hmem := mem_of_contains hrid
  have hcorr : analyze_session entries = corruptReport entries := by
    rcases analyze_session_cases entries with ⟨_, hrep⟩ | ⟨_, _, hrep⟩ | h
    · rw [hrep] at hmem; exact absurd hmem (List.not_mem_nil rid)
    · rw [hrep] at hmem; exact absurd hmem (List.not_mem_nil rid)
    · exact h
  rw [hcorr] at hmem hesc ⊢
  have hmem' : rid ∈ removeIdsOf entries := hmem
  have hesc' : ∃ n, chainFrom (idToParent entries) rid n ∉ removeIdsOf entries := hesc
  rcases remapWalk_escape hmem' hesc' with ⟨N, h1, h2, h3, h4⟩
  refine ⟨N, h1, h2, h3, ?_⟩
  show lookupFix (parentFixesOf (idToParent entries) (removeIdsOf entries)) rid = _
  rw [lookupFix_parentFixesOf hmem', h4]

/-- Witness for C5: the removed `R1` of the scenario input; its chain is
`R1 → A → ""` and the recorded fix is the first non-removed element. -/
theorem C5_witness :
    (analyze_session exEntries).remove_ids.contains "R1" = true ∧
    ∃ N, 0 < N ∧
      (∀ k < N, chainFrom (idToParent exEntries) "R1" k ∈ (analyze_session exEntries).remove_ids) ∧
      chainFrom (idToParent exEntries) "R1" N ∉ (analyze_session exEntries).remove_ids ∧
      lookupFix (analyze_session exEntries).parent_fixes "R1" =
        some (chainFrom (idToParent exEntries) "R1" N) :=
  ⟨by decide, C5_parent_remapper exEntries "R1" (by decide) ⟨2, by decide⟩⟩

/-- C6: the remap walk's result is unchanged by any extra fuel beyond the
`|removal set| + 1` the engine supplies (the visited-set guard bounds the
iteration), and on the cyclic input `A.parent = B`, `B.parent = A` with
both removed, the walk terminates and records a candidate for each. -/
theorem C6_walk_terminates :
    (∀ (m : List (String × String)) (rem : List String) (anc : String) (seen : List String)
        (extra : Nat),
        remapWalk m rem anc seen (rem.length + 1 + extra) =
          remapWalk m rem anc seen (rem.length + 1)) ∧
    (analyze_session cycEntries).parent_fixes = [("A", "A"), ("B", "B")] :=
  ⟨remapWalk_fuel_irrelevant, by decide⟩

/-- C7, counterexample to the claim as stated: `recE` is a decoded assistant
record with empty content whose `errorMessage` textually mentions the
poisoned identity `T1`, yet it is not classified as a cascade error and not
removed, because `is_empty_error_assistant` additionally requires the
substring `"tool_use_id"` in the error message. -/
theorem C7_counterexample :
    (msgOf recE).role = some "assistant" ∧
    contentEmpty (msgOf recE).content = true ∧
    (analyze_session c7Entries).broken_tool_call_ids = ["T1"] ∧
    strContains (msgOf recE).errorMessage "T1" = true ∧
    is_empty_error_assistant recE = false ∧
    (analyze_session c7Entries).remove_ids.contains "E" = false ∧
    (analyze_session c7Entries).remove_ids = ["A"] := by decide

/-- C7 (amended): every decoded assistant record with empty content whose
`errorMessage` contains the substring `"tool_use_id"` (the
empty-error-assistant shape) and textually mentions at least one poisoned
identity is classified as a cascade error and removed; membership is via an
existential over the poisoned set, independent of which matching identity
is found first. -/
theorem C7_cascade_classification (entries : List Entry) (e : Entry) (o : Record)
    (he : e ∈ entries) (ho : e.obj = some o)
    (hassist : is_empty_error_assistant o = true)
    (htc : ∃ tc ∈ brokenToolCallIds entries, strContains (msgOf o).errorMessage tc = true) :
    get_id o ∈ cascadeErrorIds entries (brokenToolCallIds entries) ∧
      get_id o ∈ (analyze_session entries).remove_ids := by
  have hcas : get_id o ∈ cascadeErrorIds entries (brokenToolCallIds entries) := by
    apply mem_gatherIds.mpr
    refine ⟨e, he, o, ho, ?_⟩
    rcases htc with ⟨tc, htcmem, hsub⟩
    have hany : (brokenToolCallIds entries).any
        (fun tcId => strContains (msgOf o).errorMessage tcId) = true :=
      List.any_eq_true.mpr ⟨tc, htcmem, hsub⟩
    rw [hassist, hany]
    simp
  refine ⟨hcas, ?_⟩
  have hrm : get_id o ∈ removeIdsOf entries := mem_removeIdsOf.mpr (Or.inr (Or.inr hcas))
  rcases analyze_session_cases entries with ⟨h0, _⟩ | ⟨hremv, _, _⟩ | hcorr
  · subst h0; exact absurd he (List.not_mem_nil e)
  · rw [hremv] at hrm; exact absurd hrm (List.not_mem_nil _)
  · rw [hcorr]; exact hrm

/-- Witness for C7 at the input whose cascade record carries both the
`tool_use_id` substring and the poisoned id. -/
theorem C7_witness :
    is_empty_error_assistant recE2 = true ∧
    "E2" ∈ cascadeErrorIds c7okEntries (brokenToolCallIds c7okEntries) ∧
    "E2" ∈ (analyze_session c7okEntries).remove_ids := by
  have h := C7_cascade_classification c7okEntries ⟨2, some recE2, "rawE2"⟩ recE2 (by decide) rfl
    (by decide) ⟨"T1", by decide, by decide⟩
  exact ⟨by decide, h.1, h.2⟩

/-- C8: the applier re-runs the detector on the corrected sequence; on any
input whose non-empty lines all decode, the verification reports the
corrected sequence clean after a single repair pass. -/
theorem C8_verification_clean (entries : List Entry)
    (h : entries.all (fun e => e.obj.isSome) = true) :
    verifiedAfterFix entries = true := by
  have h' : ∀ e ∈ entries, e.obj.isSome = true := fun e he => List.all_eq_true.mp h e he
  unfold verifiedAfterFix
  have hrm : removeIdsOf (engineRun entries) = [] := removeIdsOf_engineRun entries
  have hup : unparseableOf (engineRun entries) = [] := unparseableOf_engineRun h'
  rcases analyze_session_cases (engineRun entries) with ⟨_, hrep⟩ | ⟨_, _, hrep⟩ | hcorr
  · rw [hrep]; rfl
  · rw [hrep]; rfl
  · exfalso
    have hcb : (analyze_session (engineRun entries)).corrupted = true := by rw [hcorr]; rfl
    exact (analyze_corrupted_iff.mp hcb).2 ⟨hrm, hup⟩

/-- Witness for C8 at the corrupted scenario input. -/
theorem C8_witness :
    exEntries.all (fun e => e.obj.isSome) = true ∧ verifiedAfterFix exEntries = true :=
  ⟨by decide, C8_verification_clean exEntries (by decide)⟩

/-- C9: removal is keyed solely by id equality — no record whose id is in
the removal set survives into the output; in particular on `dupEntries`
both records with id `A` are dropped although `recA2` matches no corruption
class. -/
theorem C9_removal_keyed_by_id :
    (∀ (entries : List Entry) (e' : Entry) (o' : Record), e' ∈ engineRun entries →
      e'.obj = some o' → (analyze_session entries).remove_ids.contains (get_id o') = false) ∧
    (engineRun dupEntries).map Entry.raw = ["rawS"] ∧
    isBrokenAssistant recA2 = false ∧
    get_tool_result_id recA2 = none ∧
    is_empty_error_assistant recA2 = false ∧
    (analyze_session dupEntries).remove_ids = ["A"] := by
  refine ⟨?_, by decide, by decide, by decide, by decide, by decide⟩
  intro entries e' o' he' ho'
  rcases survivor_char he' ho' with ⟨_, _, o, _, hrem, hid, _⟩
  rw [hid]
  exact hrem

/-- Witness for C9 at the duplicate-id input. -/
theorem C9_witness :
    (⟨1, some recS, "rawS"⟩ : Entry) ∈ engineRun dupEntries ∧
    (analyze_session dupEntries).remove_ids.contains (get_id recS) = false :=
  ⟨by decide,
    C9_removal_keyed_by_id.1 dupEntries ⟨1, some recS, "rawS"⟩ recS (by decide) rfl⟩

/-- C10: an input with no non-empty lines decodes to no entries, the
analysis reports zero lines and `corrupted = false`, and the repair path
leaves the (empty) sequence unmodified. -/
theorem C10_blank_input (decode : String → Option Record) (lines : List String)
    (h : lines.all (fun l => l == "") = true) :
    analyze_session (parse_jsonl decode lines) = cleanReport 0 ∧
      apply_fix (parse_jsonl decode lines) (analyze_session (parse_jsonl decode lines)) =
        parse_jsonl decode lines := by
  have hnil : parse_jsonl decode lines = [] := by
    unfold parse_jsonl
    rw [List.filterMap_eq_nil_iff]
    intro p hp
    have hmem : p.2 ∈ lines := snd_mem_of_mem_enumFrom hp
    have hblank := List.all_eq_true.mp h p.2 hmem
    rw [if_pos hblank]
  rw [hnil]
  exact ⟨rfl, rfl⟩

/-- Witness for C10: a two-line file of blank lines, with a decoder that
never succeeds. -/
theorem C10_witness :
    analyze_session (parse_jsonl (fun _ => none) ["", ""]) = cleanReport 0 ∧
      apply_fix (parse_jsonl (fun _ => none) ["", ""])
          (analyze_session (parse_jsonl (fun _ => none) ["", ""])) =
        parse_jsonl (fun _ => none) ["", ""] :=
  C10_blank_input (fun _ => none) ["", ""] (by decide)

end OpenClaw
